import Mathlib

/- Shallow embedding of the damped-oscillator Kalman-filter script
(kalman-filter-presentation/main.py).  Real arithmetic is modelled
exactly over ℚ; the state dimension is 2 and the observation dimension
is 1, as hard-coded in the source.  Matrices and vectors are given by
explicit entries.  Random draws (the initial condition x0 and the
per-step measurement noise) are modelled as explicit inputs. -/

namespace KF

/-- Concrete 2-vector over ℚ; used for states x = (z, dz/dt), means μ,
columns such as the gain K, and (as a row) the measurement matrix H. -/
structure Vec2 where
  x : ℚ
  y : ℚ
deriving DecidableEq

/-- Concrete 2×2 matrix over ℚ with rows (a, b) and (c, d). -/
structure Mat2 where
  a : ℚ
  b : ℚ
  c : ℚ
  d : ℚ
deriving DecidableEq

def vecAdd (u v : Vec2) : Vec2 := ⟨u.x + v.x, u.y + v.y⟩

def vecSub (u v : Vec2) : Vec2 := ⟨u.x - v.x, u.y - v.y⟩

def smulVec (t : ℚ) (v : Vec2) : Vec2 := ⟨t * v.x, t * v.y⟩

/-- Inner product of two 2-vectors. -/
def dot (u v : Vec2) : ℚ := u.x * v.x + u.y * v.y

def matAdd (P Q : Mat2) : Mat2 := ⟨P.a + Q.a, P.b + Q.b, P.c + Q.c, P.d + Q.d⟩

def matSub (P Q : Mat2) : Mat2 := ⟨P.a - Q.a, P.b - Q.b, P.c - Q.c, P.d - Q.d⟩

def smulMat (t : ℚ) (P : Mat2) : Mat2 := ⟨t * P.a, t * P.b, t * P.c, t * P.d⟩

def matMul (P Q : Mat2) : Mat2 :=
  ⟨P.a * Q.a + P.b * Q.c, P.a * Q.b + P.b * Q.d,
   P.c * Q.a + P.d * Q.c, P.c * Q.b + P.d * Q.d⟩

def matVec (P : Mat2) (v : Vec2) : Vec2 :=
  ⟨P.a * v.x + P.b * v.y, P.c * v.x + P.d * v.y⟩

def transpose2 (P : Mat2) : Mat2 := ⟨P.a, P.c, P.b, P.d⟩

/-- Row-vector times matrix: u P, with u read as a 1×2 row. -/
def rowMat (u : Vec2) (P : Mat2) : Vec2 :=
  ⟨u.x * P.a + u.y * P.c, u.x * P.b + u.y * P.d⟩

/-- Outer product: column u times row v, a 2×2 matrix. -/
def outer (u v : Vec2) : Mat2 :=
  ⟨u.x * v.x, u.x * v.y, u.y * v.x, u.y * v.y⟩

/-- Quadratic form vᵀ P v. -/
def quadForm (P : Mat2) (v : Vec2) : ℚ :=
  v.x * (P.a * v.x + P.b * v.y) + v.y * (P.c * v.x + P.d * v.y)

/-- Symmetry of a 2×2 matrix. -/
def Mat2.IsSymm (P : Mat2) : Prop := P.b = P.c

/-- Positive semidefiniteness, as nonnegativity of the quadratic form. -/
def Mat2.PosSemidef (P : Mat2) : Prop := ∀ v : Vec2, 0 ≤ quadForm P v

/- Global parameters of the script (main.py lines 9-19). -/

/-- Number of time steps, T = 25000. -/
def T : ℕ := 25000

/-- Time step, dt = 0.001. -/
def dt : ℚ := 1/1000

/-- Natural frequency, w = 1. -/
def w : ℚ := 1

/-- Damping ratio, xi = 0.001. -/
def xi : ℚ := 1/1000

/-- Measurement matrix H = [[1, 0]], stored as the row (1, 0). -/
def H : Vec2 := ⟨1, 0⟩

/-- Variance of measurement error, R = 5 (scalar, p = 1). -/
def R : ℚ := 5

/-- The 2×2 identity matrix. -/
def I : Mat2 := ⟨1, 0, 0, 1⟩

/-- Initial condition x0 = np.random.multivariate_normal([0, 0], I): the
draw from N((0,0), I) is modelled as the mean plus the Cholesky factor of
the covariance I (the identity) applied to an explicit standard-normal
draw g supplied as input. -/
def x0 (g : Vec2) : Vec2 := vecAdd ⟨0, 0⟩ (matVec I g)

/-- System matrix A = [[0, 1], [-w**2, -2*xi*w]] (main.py line 18). -/
def A (w xi : ℚ) : Mat2 := ⟨0, 1, -w^2, -(2 * xi * w)⟩

/-- Forecasting matrix M = I + dt * A (main.py line 19). -/
def M (w xi dt : ℚ) : Mat2 := matAdd I (smulMat dt (A w xi))

/-- The script's concrete forecasting matrix, built from the globals. -/
def Mrun : Mat2 := M w xi dt

/-- Trajectory simulator (main.py lines 26-28): true_xs[0] = x0 and
true_xs[k+1] = M @ true_xs[k].  Pure linear recursion, no clamping,
renormalization or random state. -/
def true_xs (M : Mat2) (x0v : Vec2) : ℕ → Vec2
  | 0 => x0v
  | k + 1 => matVec M (true_xs M x0v k)

/-- Matrix power, with matPow P (k+1) = P * matPow P k. -/
def matPow (P : Mat2) : ℕ → Mat2
  | 0 => I
  | k + 1 => matMul P (matPow P k)

/-- Measurement generator (main.py line 60): y = H @ x + v where the
noise draw v ~ N(0, R) (computed in the source as sqrt(R) times a
standard draw) is modelled as an explicit input value vs k. -/
def synth_ys (g : Vec2) (vs : ℕ → ℚ) (k : ℕ) : ℚ :=
  dot H (true_xs Mrun (x0 g) k) + vs k

/- The Kalman filter loop body (main.py lines 81-95). -/

/-- Forecast mean mu_f = M @ mu_last. -/
def mu_f (M : Mat2) (mu : Vec2) : Vec2 := matVec M mu

/-- Forecast covariance P_f = M @ P_last @ M.T (left associated, as
numpy evaluates it). -/
def P_f (M P : Mat2) : Mat2 := matMul (matMul M P) (transpose2 M)

/-- Innovation covariance, source expression R.T + (H @ P_f @ H.T).T;
both quantities are 1×1 so the transposes are identities. -/
def Sval (Hr : Vec2) (R : ℚ) (Pf : Mat2) : ℚ :=
  R + dot (rowMat Hr Pf) Hr

/-- Gain, source expression np.linalg.solve(R.T + (H @ P_f @ H.T).T,
H @ P_f.T).T: for the 1×1 system the solve divides the row H @ P_f.T by
S, and the final transpose makes K a 2×1 column. -/
def Kgain (Hr : Vec2) (R : ℚ) (Pf : Mat2) : Vec2 :=
  ⟨(rowMat Hr (transpose2 Pf)).x / Sval Hr R Pf,
   (rowMat Hr (transpose2 Pf)).y / Sval Hr R Pf⟩

/-- Corrected mean new_mu = mu_f - K @ (H @ mu_f - y). -/
def new_mu (Hr K muf : Vec2) (y : ℚ) : Vec2 :=
  vecSub muf (smulVec (dot Hr muf - y) K)

/-- Corrected covariance new_P = P_f - K @ (H @ P_f).  No symmetrization
or other correction is applied. -/
def new_P (Hr K : Vec2) (Pf : Mat2) : Mat2 :=
  matSub Pf (outer K (rowMat Hr Pf))

/-- One pass of the filter loop body, from state (μ, P) and observation
y to ((new_mu, new_P), K). -/
def kalmanStep (M : Mat2) (Hr : Vec2) (R : ℚ) (st : Vec2 × Mat2) (y : ℚ) :
    (Vec2 × Mat2) × Vec2 :=
  ((new_mu Hr (Kgain Hr R (P_f M st.2)) (mu_f M st.1) y,
    new_P Hr (Kgain Hr R (P_f M st.2)) (P_f M st.2)),
   Kgain Hr R (P_f M st.2))

/-- The filter state after k loop iterations: (kalman_mus[k],
kalman_Ps[k]), with initial state μ_0 = (0,0)ᵀ, P_0 = I and observation
sequence ys. -/
def kalman_state (ys : ℕ → ℚ) : ℕ → Vec2 × Mat2
  | 0 => (⟨0, 0⟩, I)
  | k + 1 => (kalmanStep Mrun H R (kalman_state ys k) (ys k)).1

/-- kalman_gains[k], the gain emitted at iteration k. -/
def kalman_gains (ys : ℕ → ℚ) (k : ℕ) : Vec2 :=
  (kalmanStep Mrun H R (kalman_state ys k) (ys k)).2

/-- Estimator transition written from the spec's words (section 4.4):
forecast μ_f = M μ and P_f = M P Mᵀ; innovation covariance
S = R + H P_f Hᵀ; gain K = (H P_f)ᵀ S⁻¹; correction
μ_new = μ_f − K (H μ_f − y) and P_new = P_f − K (H P_f); output
((μ_new, P_new), K). -/
def specStep (M : Mat2) (Hr : Vec2) (R : ℚ) (st : Vec2 × Mat2) (y : ℚ) :
    (Vec2 × Mat2) × Vec2 :=
  ((vecSub (matVec M st.1)
      (smulVec (dot Hr (matVec M st.1) - y)
        ⟨(rowMat Hr (matMul M (matMul st.2 (transpose2 M)))).x *
            (R + dot (rowMat Hr (matMul M (matMul st.2 (transpose2 M)))) Hr)⁻¹,
         (rowMat Hr (matMul M (matMul st.2 (transpose2 M)))).y *
            (R + dot (rowMat Hr (matMul M (matMul st.2 (transpose2 M)))) Hr)⁻¹⟩),
    matSub (matMul M (matMul st.2 (transpose2 M)))
      (outer
        ⟨(rowMat Hr (matMul M (matMul st.2 (transpose2 M)))).x *
            (R + dot (rowMat Hr (matMul M (matMul st.2 (transpose2 M)))) Hr)⁻¹,
         (rowMat Hr (matMul M (matMul st.2 (transpose2 M)))).y *
            (R + dot (rowMat Hr (matMul M (matMul st.2 (transpose2 M)))) Hr)⁻¹⟩
        (rowMat Hr (matMul M (matMul st.2 (transpose2 M)))))),
   ⟨(rowMat Hr (matMul M (matMul st.2 (transpose2 M)))).x *
       (R + dot (rowMat Hr (matMul M (matMul st.2 (transpose2 M)))) Hr)⁻¹,
    (rowMat Hr (matMul M (matMul st.2 (transpose2 M)))).y *
       (R + dot (rowMat Hr (matMul M (matMul st.2 (transpose2 M)))) Hr)⁻¹⟩)

/-- Error kind for a singular innovation covariance: the
numpy.linalg.LinAlgError raised by np.linalg.solve. -/
inductive NumFault
  | singularS
deriving DecidableEq

/-- Filter step with the failure of the solve made explicit: when S is
singular (S = 0 for the 1×1 system) the step raises singularS instead of
producing a value. -/
def stepE (M : Mat2) (Hr : Vec2) (R : ℚ) (st : Vec2 × Mat2) (y : ℚ) :
    Except NumFault ((Vec2 × Mat2) × Vec2) :=
  if Sval Hr R (P_f M st.2) = 0 then Except.error NumFault.singularS
  else Except.ok (kalmanStep M Hr R st y)

/-- The filter loop with exception propagation: successive states are
accumulated until a step fails; on failure the list built so far is kept
unchanged and the fault is reported alongside it. -/
def runE (M : Mat2) (Hr : Vec2) (R : ℚ) :
    (Vec2 × Mat2) → List ℚ → List (Vec2 × Mat2) × Option NumFault
  | _, [] => ([], none)
  | st, y :: ys =>
    match stepE M Hr R st y with
    | Except.error e => ([], some e)
    | Except.ok st2 =>
      ((st2.1 :: (runE M Hr R st2.1 ys).1), (runE M Hr R st2.1 ys).2)

/-- The radicand of RMSEs[k] (main.py lines 149-151):
0.5 * ((x_k[0] − μ_k[0])² + (x_k[1] − μ_k[1])²); the outer square root
is monotone and omitted in the rational model. -/
def RMSE_sq (g : Vec2) (ys : ℕ → ℚ) (k : ℕ) : ℚ :=
  (1/2) * (((true_xs Mrun (x0 g) k).x - ((kalman_state ys k).1).x)^2
    + ((true_xs Mrun (x0 g) k).y - ((kalman_state ys k).1).y)^2)

/- Helper lemmas. -/

theorem quad_P_f (M P : Mat2) (v : Vec2) :
    quadForm (P_f M P) v = quadForm P (matVec (transpose2 M) v) := by
  cases M; cases P; cases v
  simp only [P_f, quadForm, matMul, matVec, transpose2]
  ring

theorem P_f_symm (M P : Mat2) (hsym : P.IsSymm) : (P_f M P).IsSymm := by
  cases M; cases P
  simp only [Mat2.IsSymm] at hsym ⊢
  subst hsym
  simp only [P_f, matMul, transpose2]
  ring

theorem P_f_psd (M P : Mat2) (hpsd : P.PosSemidef) : (P_f M P).PosSemidef := by
  intro v
  rw [quad_P_f]
  exact hpsd _

theorem Sval_eq_R_add_quad (Hr : Vec2) (R : ℚ) (Pf : Mat2) :
    Sval Hr R Pf = R + quadForm Pf Hr := by
  cases Hr; cases Pf
  simp only [Sval, dot, rowMat, quadForm]
  ring

theorem Sval_nonneg (Hr : Vec2) (R : ℚ) (Pf : Mat2)
    (hpsd : Pf.PosSemidef) (hR : 0 ≤ R) : 0 ≤ Sval Hr R Pf := by
  have h1 := hpsd Hr
  rw [Sval_eq_R_add_quad]
  linarith

theorem newP_symm (Hr : Vec2) (R : ℚ) (Pf : Mat2) (hsym : Pf.IsSymm) :
    (new_P Hr (Kgain Hr R Pf) Pf).IsSymm := by
  cases Hr; cases Pf
  simp only [Mat2.IsSymm] at hsym ⊢
  subst hsym
  simp only [new_P, Kgain, Sval, dot, rowMat, outer, matSub, transpose2]
  ring

theorem newP_psd (Hr : Vec2) (R : ℚ) (Pf : Mat2) (hsym : Pf.IsSymm)
    (hpsd : Pf.PosSemidef) (hR : 0 ≤ R) (hS : Sval Hr R Pf ≠ 0) :
    (new_P Hr (Kgain Hr R Pf) Pf).PosSemidef := by
  have hSpos : 0 < Sval Hr R Pf :=
    lt_of_le_of_ne (Sval_nonneg Hr R Pf hpsd hR) (Ne.symm hS)
  intro v
  have key := hpsd ⟨Sval Hr R Pf * v.x - dot (rowMat Hr Pf) v * Hr.x,
                   Sval Hr R Pf * v.y - dot (rowMat Hr Pf) v * Hr.y⟩
  have hexp : quadForm Pf ⟨Sval Hr R Pf * v.x - dot (rowMat Hr Pf) v * Hr.x,
        Sval Hr R Pf * v.y - dot (rowMat Hr Pf) v * Hr.y⟩
      = Sval Hr R Pf *
          (quadForm Pf v * Sval Hr R Pf - (dot (rowMat Hr Pf) v)^2)
        - R * (dot (rowMat Hr Pf) v)^2 := by
    cases Hr; cases Pf; cases v
    simp only [Mat2.IsSymm] at hsym
    subst hsym
    simp only [Sval, quadForm, dot, rowMat]
    ring
  rw [hexp] at key
  have hRb : 0 ≤ R * (dot (rowMat Hr Pf) v)^2 := mul_nonneg hR (sq_nonneg _)
  have hgs : 0 ≤ quadForm Pf v * Sval Hr R Pf - (dot (rowMat Hr Pf) v)^2 := by
    nlinarith [key, hRb, hSpos]
  have hmul : quadForm (new_P Hr (Kgain Hr R Pf) Pf) v * Sval Hr R Pf
      = quadForm Pf v * Sval Hr R Pf - (dot (rowMat Hr Pf) v)^2 := by
    cases Hr; cases Pf; cases v
    simp only [Mat2.IsSymm] at hsym
    subst hsym
    simp only [new_P, Kgain, Sval, quadForm, dot, rowMat, outer, matSub,
      transpose2] at hS ⊢
    field_simp
    ring
  nlinarith [hmul, hgs, hSpos]

theorem transpose2_eq_self (P : Mat2) (hsym : P.IsSymm) : transpose2 P = P := by
  cases P
  simp only [Mat2.IsSymm] at hsym
  subst hsym
  rfl

theorem matVec_matMul (P Q : Mat2) (v : Vec2) :
    matVec (matMul P Q) v = matVec P (matVec Q v) := by
  cases P; cases Q; cases v
  simp only [matVec, matMul, Vec2.mk.injEq]
  constructor <;> ring

theorem matVec_I (v : Vec2) : matVec I v = v := by
  cases v
  simp [matVec, I]

theorem matSub_matSub (P Q : Mat2) : matSub P (matSub P Q) = Q := by
  cases P; cases Q
  simp only [matSub, Mat2.mk.injEq]
  refine ⟨by ring, by ring, by ring, by ring⟩

/- Claim theorems. -/

/-- C3: for every step k ≥ 0 of the estimator run (any observation
sequence), the stored covariance kalman_Ps[k] is symmetric and positive
semidefinite.  The invariant is maintained by the raw update alone — the
embedded update new_P applies no symmetrization or other correction. -/
theorem kalman_Ps_symm_psd (ys : ℕ → ℚ) (k : ℕ) :
    ((kalman_state ys k).2).IsSymm ∧ ((kalman_state ys k).2).PosSemidef := by
  induction k with
  | zero =>
    refine ⟨rfl, fun v => ?_⟩
    simp only [kalman_state, quadForm, I]
    nlinarith [sq_nonneg v.x, sq_nonneg v.y]
  | succ k ih =>
    obtain ⟨hsym, hpsd⟩ := ih
    have hPfsym := P_f_symm Mrun _ hsym
    have hPfpsd := P_f_psd Mrun _ hpsd
    have hR : (0:ℚ) ≤ R := by norm_num [R]
    have hq := hPfpsd H
    have hS : Sval H R (P_f Mrun (kalman_state ys k).2) ≠ 0 := by
      rw [Sval_eq_R_add_quad]
      intro hc
      rw [R] at hc
      linarith
    exact ⟨newP_symm _ _ _ hPfsym, newP_psd _ _ _ hPfsym hPfpsd hR hS⟩

/-- C4: the trajectory simulator, given M, x0 and any step count,
produces exactly the sequence with x_0 = x0 and x_{k+1} = M x_k,
equivalently x_k = M^k x0 for every k; it is a pure deterministic
recursion with no clamping, renormalization or internal random state. -/
theorem true_xs_closed_form (Mv : Mat2) (x0v : Vec2) :
    true_xs Mv x0v 0 = x0v ∧
    (∀ k, true_xs Mv x0v (k+1) = matVec Mv (true_xs Mv x0v k)) ∧
    (∀ k, true_xs Mv x0v k = matVec (matPow Mv k) x0v) := by
  refine ⟨rfl, fun _ => rfl, fun k => ?_⟩
  induction k with
  | zero => exact (matVec_I x0v).symm
  | succ k ih =>
    show matVec Mv (true_xs Mv x0v k) = matVec (matMul Mv (matPow Mv k)) x0v
    rw [ih, matVec_matMul]

/-- C5: the dynamics model produces exactly
A = [[0, 1], [-ω², -2ξω]] and M = I + dt·A, whose entries therefore are
[[1, dt], [-dt·ω², 1 - 2·dt·ξ·ω]]; both are pure functions of
(ω, ξ, dt), never mutated afterwards. -/
theorem dynamics_matrices (wv xiv dtv : ℚ) :
    A wv xiv = ⟨0, 1, -wv^2, -(2 * xiv * wv)⟩ ∧
    M wv xiv dtv = matAdd I (smulMat dtv (A wv xiv)) ∧
    M wv xiv dtv = ⟨1, dtv, -(dtv * wv^2), 1 - 2 * dtv * xiv * wv⟩ := by
  refine ⟨rfl, rfl, ?_⟩
  simp only [M, A, I, matAdd, smulMat, Mat2.mk.injEq]
  refine ⟨by ring, by ring, by ring, by ring⟩

/-- C1: one estimator step on a filter state (μ, P) (whose covariance P
is symmetric, as the data model requires) with a solvable innovation
covariance S produces exactly the spec's transition: the code's step
equals the spec's step (forecast μ_f = M μ, P_f = M P Mᵀ with no
process-noise term, gain K = (H P_f)ᵀ S⁻¹, correction
μ_new = μ_f − K (H μ_f − y), P_new = P_f − K (H P_f)); the emitted gain
K satisfies K S = (H P_f)ᵀ; and in the loop, (μ_new, P_new) becomes the
next state while K is emitted to kalman_gains. -/
theorem kalmanStep_eq_specStep (Mv : Mat2) (Hr : Vec2) (Rv : ℚ)
    (muv : Vec2) (Pv : Mat2) (y : ℚ)
    (hsym : Pv.IsSymm) (hS : Sval Hr Rv (P_f Mv Pv) ≠ 0) :
    kalmanStep Mv Hr Rv (muv, Pv) y = specStep Mv Hr Rv (muv, Pv) y ∧
    smulVec (Sval Hr Rv (P_f Mv Pv)) (kalmanStep Mv Hr Rv (muv, Pv) y).2
      = rowMat Hr (P_f Mv Pv) ∧
    (∀ ys k, kalman_state ys (k+1)
        = (kalmanStep Mrun H R (kalman_state ys k) (ys k)).1 ∧
      kalman_gains ys k
        = (kalmanStep Mrun H R (kalman_state ys k) (ys k)).2) := by
  have ht := transpose2_eq_self _ (P_f_symm Mv Pv hsym)
  have hassoc : matMul Mv (matMul Pv (transpose2 Mv)) = P_f Mv Pv := by
    cases Mv; cases Pv
    simp only [P_f, matMul, transpose2, Mat2.mk.injEq]
    refine ⟨by ring, by ring, by ring, by ring⟩
  refine ⟨?_, ?_, fun ys k => ⟨rfl, rfl⟩⟩
  · simp only [kalmanStep, specStep, new_mu, new_P, mu_f, hassoc, Kgain, ht,
      Sval, div_eq_mul_inv]
  · rcases hu : rowMat Hr (P_f Mv Pv) with ⟨ux, uy⟩
    simp only [kalmanStep, Kgain, ht, hu, smulVec, Vec2.mk.injEq]
    constructor <;> field_simp

/-- C2: at any estimator step taken from a filter state whose covariance
P is symmetric positive-semidefinite, for every measurement row H and
every valid (positive-semidefinite, i.e. nonnegative) scalar R for which
the solve succeeds, the corrected covariance is dominated by the
forecast covariance in the Loewner order: P_f − P_new is positive
semidefinite. -/
theorem forecast_minus_corrected_psd (Mv : Mat2) (Hr : Vec2) (Rv : ℚ)
    (Pv : Mat2) (hsym : Pv.IsSymm) (hpsd : Pv.PosSemidef) (hR : 0 ≤ Rv)
    (hS : Sval Hr Rv (P_f Mv Pv) ≠ 0) :
    (matSub (P_f Mv Pv)
      (new_P Hr (Kgain Hr Rv (P_f Mv Pv)) (P_f Mv Pv))).PosSemidef := by
  have hPfsym := P_f_symm Mv Pv hsym
  have hPfpsd := P_f_psd Mv Pv hpsd
  have hSpos : 0 < Sval Hr Rv (P_f Mv Pv) :=
    lt_of_le_of_ne (Sval_nonneg _ _ _ hPfpsd hR) (Ne.symm hS)
  have ht := transpose2_eq_self _ hPfsym
  intro v
  rw [new_P, matSub_matSub]
  have hq : quadForm
        (outer (Kgain Hr Rv (P_f Mv Pv)) (rowMat Hr (P_f Mv Pv))) v
      * Sval Hr Rv (P_f Mv Pv) = (dot (rowMat Hr (P_f Mv Pv)) v)^2 := by
    simp only [Kgain, ht, quadForm, outer, dot]
    field_simp
    ring
  nlinarith [hq, sq_nonneg (dot (rowMat Hr (P_f Mv Pv)) v), hSpos]

/-- C7: if the innovation covariance S is singular at a step, the
estimator step fails with the distinct error kind singularS instead of
producing a garbage estimate, and the run's output is truncated there:
a failing step contributes no entry and reports the fault, while a
successful step's entry is retained unchanged and the run continues, so
entries for steps before a failure are exactly the successful states. -/
theorem runE_truncates_on_singular :
    (∀ (Mv : Mat2) (Hr : Vec2) (Rv : ℚ) (st : Vec2 × Mat2) (y : ℚ)
        (ys : List ℚ), Sval Hr Rv (P_f Mv st.2) = 0 →
      runE Mv Hr Rv st (y :: ys) = ([], some NumFault.singularS)) ∧
    (∀ (Mv : Mat2) (Hr : Vec2) (Rv : ℚ) (st : Vec2 × Mat2) (y : ℚ)
        (ys : List ℚ), Sval Hr Rv (P_f Mv st.2) ≠ 0 →
      runE Mv Hr Rv st (y :: ys)
        = ((kalmanStep Mv Hr Rv st y).1 ::
            (runE Mv Hr Rv (kalmanStep Mv Hr Rv st y).1 ys).1,
           (runE Mv Hr Rv (kalmanStep Mv Hr Rv st y).1 ys).2)) := by
  constructor
  · intro Mv Hr Rv st y ys h
    simp [runE, stepE, h]
  · intro Mv Hr Rv st y ys h
    simp [runE, stepE, h]

/-- Witness for C7: a run with a degenerate configuration (R = 0 and a
zero covariance) fails at once with singularS and an empty output, while
the reference configuration takes a successful step whose state is
retained. -/
theorem runE_truncates_on_singular_witness :
    runE I H 0 ((⟨0, 0⟩ : Vec2), (⟨0, 0, 0, 0⟩ : Mat2)) [1]
      = ([], some NumFault.singularS) ∧
    runE Mrun H R ((⟨0, 0⟩ : Vec2), I) [0]
      = ((kalmanStep Mrun H R ((⟨0, 0⟩ : Vec2), I) 0).1 ::
          (runE Mrun H R (kalmanStep Mrun H R ((⟨0, 0⟩ : Vec2), I) 0).1 []).1,
         (runE Mrun H R (kalmanStep Mrun H R ((⟨0, 0⟩ : Vec2), I) 0).1 []).2) :=
  ⟨runE_truncates_on_singular.1 I H 0 (⟨0, 0⟩, ⟨0, 0, 0, 0⟩) 1 []
     (by norm_num [Sval, P_f, dot, rowMat, matMul, transpose2, H, I]),
   runE_truncates_on_singular.2 Mrun H R (⟨0, 0⟩, I) 0 []
     (by norm_num [Sval, P_f, dot, rowMat, matMul, transpose2, H, I, R, Mrun,
        M, A, matAdd, smulMat, w, xi, dt])⟩

/-- C10: the estimate after j iterations incorporates exactly the
observations y_0 … y_{j−1}: it is unchanged under any change of the
observation sequence beyond index j−1, and iteration k corrects the
forecast of state k using observation ys k to produce state k+1; the
RMSE diagnostic at index k compares the true state and the estimate at
the same index k. -/
theorem estimates_offset_from_observations :
    (∀ (ys ys2 : ℕ → ℚ) (j : ℕ), (∀ i, i < j → ys i = ys2 i) →
      kalman_state ys j = kalman_state ys2 j) ∧
    (∀ (ys : ℕ → ℚ) (k : ℕ), kalman_state ys (k+1)
        = (kalmanStep Mrun H R (kalman_state ys k) (ys k)).1) ∧
    (∀ (g : Vec2) (ys : ℕ → ℚ) (k : ℕ), RMSE_sq g ys k
        = (1/2) * (((true_xs Mrun (x0 g) k).x - ((kalman_state ys k).1).x)^2
          + ((true_xs Mrun (x0 g) k).y - ((kalman_state ys k).1).y)^2)) := by
  refine ⟨?_, fun ys k => rfl, fun g ys k => rfl⟩
  intro ys ys2 j
  induction j with
  | zero => intro _; rfl
  | succ j ih =>
    intro hagree
    have h1 : kalman_state ys j = kalman_state ys2 j :=
      ih (fun i hi => hagree i (Nat.lt_succ_of_lt hi))
    show (kalmanStep Mrun H R (kalman_state ys j) (ys j)).1
        = (kalmanStep Mrun H R (kalman_state ys2 j) (ys2 j)).1
    rw [h1, hagree j (Nat.lt_succ_self j)]

/-- Witness for C10: two observation sequences agreeing on indices 0 and
1 give the same estimate at index 2, even though they differ from index
2 on. -/
theorem estimates_offset_from_observations_witness :
    kalman_state (fun _ => 0) 2
      = kalman_state (fun i => if i < 2 then 0 else 1) 2 :=
  estimates_offset_from_observations.1 (fun _ => 0)
    (fun i => if i < 2 then 0 else 1) 2 (fun i hi => by simp [hi])

/-- C6 (amended): given identical configuration and identical random
draws — the initial-condition draw g and the per-step measurement-noise
draws vs — two runs of the measurement generator and the estimator
produce identical output sequences.  The random draws are the only
source of non-determinism, but they enter in the initial condition x0 as
well as in the measurement generator, and the source is not seeded. -/
theorem runs_deterministic_given_draws (g g2 : Vec2) (vs vs2 : ℕ → ℚ)
    (hg : g = g2) (hv : ∀ i, vs i = vs2 i) :
    (∀ k, synth_ys g vs k = synth_ys g2 vs2 k) ∧
    (∀ k, kalman_state (synth_ys g vs) k = kalman_state (synth_ys g2 vs2) k) ∧
    (∀ k, kalman_gains (synth_ys g vs) k = kalman_gains (synth_ys g2 vs2) k) := by
  subst hg
  have hys : synth_ys g vs = synth_ys g vs2 := by
    funext k
    simp only [synth_ys, hv k]
  rw [hys]
  exact ⟨fun k => rfl, fun k => rfl, fun k => rfl⟩

/-- Witness for C6: two syntactically different but pointwise equal
noise streams give the same first measurement. -/
theorem runs_deterministic_given_draws_witness :
    synth_ys ⟨0, 0⟩ (fun _ => 0) 0 = synth_ys ⟨0, 0⟩ (fun i => 0 * (i : ℚ)) 0 :=
  (runs_deterministic_given_draws ⟨0, 0⟩ ⟨0, 0⟩ (fun _ => 0)
    (fun i => 0 * (i : ℚ)) rfl (fun i => by ring)).1 0

/-- Counterexample to C6 as stated: the measurement generator's draws
are not the only source of non-determinism.  With the measurement-noise
draws held identical (all zero), changing only the initial-condition
draw of line 16 changes the measurement output. -/
theorem synth_ys_depends_on_x0_draw :
    synth_ys ⟨1, 0⟩ (fun _ => 0) 0 ≠ synth_ys ⟨0, 0⟩ (fun _ => 0) 0 := by
  norm_num [synth_ys, dot, true_xs, x0, vecAdd, matVec, H, I]

/-- C9 (amended): the reference run uses exactly ω = 1, ξ = 0.001,
dt = 0.001, T = 25000, H = [1, 0], R = 5, μ_0 = (0, 0), P_0 = I; but the
true initial condition x0 is drawn from N((0,0), I) — it equals the
mean (0,0) plus the identity-covariance draw, i.e. the draw itself —
rather than being fixed at the zero vector, and no random seed is set. -/
theorem reference_config_values :
    w = 1 ∧ xi = 1/1000 ∧ dt = 1/1000 ∧ T = 25000 ∧ H = ⟨1, 0⟩ ∧ R = 5 ∧
    (∀ ys : ℕ → ℚ, kalman_state ys 0 = (⟨0, 0⟩, I)) ∧
    (∀ g : Vec2, x0 g = g) := by
  refine ⟨rfl, rfl, rfl, rfl, rfl, rfl, fun ys => rfl, fun g => ?_⟩
  cases g
  simp [x0, vecAdd, matVec, I]

/-- Counterexample to C9 as stated: the true initial condition is the
random draw, not the zero vector — under the possible standard-normal
draw (1, 0) the script's x0 differs from (0, 0). -/
theorem x0_not_zero_vector : x0 ⟨1, 0⟩ ≠ (⟨0, 0⟩ : Vec2) := by
  norm_num [x0, vecAdd, matVec, I, Vec2.mk.injEq]

/-- C8 (amended): no configuration validation is performed: the
parameters of lines 8–19 are module-level values consumed as given, and
the dynamics construction is a total function that silently accepts a
non-positive dt, producing the usual closed-form transition matrix from
it. -/
theorem construction_accepts_nonpositive_dt (wv xiv dtv : ℚ)
    (_hdt : dtv ≤ 0) :
    M wv xiv dtv = ⟨1, dtv, -(dtv * wv^2), 1 - 2 * dtv * xiv * wv⟩ := by
  simp only [M, A, I, matAdd, smulMat, Mat2.mk.injEq]
  refine ⟨by ring, by ring, by ring, by ring⟩

/-- Witness for C8 (amended): the invalid step size dt = −1 is accepted
and flows through the construction. -/
theorem construction_accepts_nonpositive_dt_witness :
    (-1 : ℚ) ≤ 0 ∧
    M 1 (1/1000) (-1) = ⟨1, -1, -((-1) * 1^2), 1 - 2 * (-1) * (1/1000) * 1⟩ :=
  ⟨by norm_num, construction_accepts_nonpositive_dt 1 (1/1000) (-1) (by norm_num)⟩

/-- Counterexample to C8 as stated: nothing is detected eagerly at
construction.  At the invalid step size dt = −1/1000 the dynamics
construction of lines 18–19 returns an ordinary transition matrix — its
type has no error outcome at all, so no configuration error is surfaced
before simulation. -/
theorem M_accepts_negative_dt :
    M 1 (1/1000) (-(1/1000)) = ⟨1, -(1/1000), 1/1000, 1 + 1/500000⟩ := by
  norm_num [M, A, I, matAdd, smulMat, Mat2.mk.injEq]

/-- Witness for C1: the step refinement instantiated at the identity
transition matrix, the reference H and R, state ((0,0), I) and
observation 1. -/
theorem kalmanStep_eq_specStep_witness :
    kalmanStep I H 5 ((⟨0, 0⟩ : Vec2), I) 1 = specStep I H 5 ((⟨0, 0⟩ : Vec2), I) 1 :=
  (kalmanStep_eq_specStep I H 5 ⟨0, 0⟩ I 1 rfl
    (by norm_num [Sval, P_f, dot, rowMat, matMul, transpose2, H, I])).1

/-- Witness for C2: Loewner domination instantiated at the identity
transition matrix and covariance with the reference H and R. -/
theorem forecast_minus_corrected_psd_witness :
    (matSub (P_f I I) (new_P H (Kgain H 5 (P_f I I)) (P_f I I))).PosSemidef :=
  forecast_minus_corrected_psd I H 5 I rfl
    (fun v => by
      simp only [quadForm, I]
      nlinarith [sq_nonneg v.x, sq_nonneg v.y])
    (by norm_num)
    (by norm_num [Sval, P_f, dot, rowMat, matMul, transpose2, H, I])

end KF
